import Mathlib

/-!
A shallow embedding of the core of the Algorithmic-Trading backtester
(src/backtester/src/backtester.py): the per-product order book, the FIFO
position/PnL tracker, the order-matching engine and the liquidation step of
the run driver, together with theorems settling the specification claims.

Quantities and prices are Python ints; prices become rationals where the
code mixes them with mid prices (which may be half-integers) and with the
float PnL accumulators, so all PnL arithmetic is carried out in ℚ.
-/

/-- State of `PositionTracker`: signed position, realized PnL, and the FIFO
long/short lot queues, each lot a (quantity, entry price) pair. -/
structure PositionTracker where
  position : Int
  realized_pnl : ℚ
  long_queue : List (Int × ℚ)
  short_queue : List (Int × ℚ)
deriving DecidableEq, Repr

/-- The fresh tracker built by `PositionTracker.__init__`. -/
def PositionTracker.init : PositionTracker := ⟨0, 0, [], []⟩

/-- The while-loop of `_process_buy`: drain the short queue head-first,
realizing closedQty * (shortPrice - fillPrice) per closed amount.  Returns
(remaining quantity, remaining short queue, updated realized PnL). -/
def drainShort (price : ℚ) : Int → List (Int × ℚ) → ℚ → Int × List (Int × ℚ) × ℚ
  | remaining, [], realized => (remaining, [], realized)
  | remaining, (sq, sp) :: rest, realized =>
    if remaining ≤ 0 then (remaining, (sq, sp) :: rest, realized)
    else if sq ≤ remaining then
      drainShort price (remaining - sq) rest (realized + (sq : ℚ) * (sp - price))
    else
      (0, (sq - remaining, sp) :: rest, realized + (remaining : ℚ) * (sp - price))

/-- The while-loop of `_process_sell`: drain the long queue head-first,
realizing closedQty * (fillPrice - longPrice) per closed amount. -/
def drainLong (price : ℚ) : Int → List (Int × ℚ) → ℚ → Int × List (Int × ℚ) × ℚ
  | remaining, [], realized => (remaining, [], realized)
  | remaining, (lq, lp) :: rest, realized =>
    if remaining ≤ 0 then (remaining, (lq, lp) :: rest, realized)
    else if lq ≤ remaining then
      drainLong price (remaining - lq) rest (realized + (lq : ℚ) * (price - lp))
    else
      (0, (lq - remaining, lp) :: rest, realized + (remaining : ℚ) * (price - lp))

/-- `PositionTracker._process_buy`: close shorts first, any remainder is
appended as a new long lot. -/
def PositionTracker.process_buy (quantity : Int) (price : ℚ) (s : PositionTracker) :
    PositionTracker :=
  let d := drainShort price quantity s.short_queue s.realized_pnl
  { s with
    short_queue := d.2.1
    realized_pnl := d.2.2
    long_queue := if 0 < d.1 then s.long_queue ++ [(d.1, price)] else s.long_queue }

/-- `PositionTracker._process_sell`: close longs first, any remainder is
appended as a new short lot. -/
def PositionTracker.process_sell (quantity : Int) (price : ℚ) (s : PositionTracker) :
    PositionTracker :=
  let d := drainLong price quantity s.long_queue s.realized_pnl
  { s with
    long_queue := d.2.1
    realized_pnl := d.2.2
    short_queue := if 0 < d.1 then s.short_queue ++ [(d.1, price)] else s.short_queue }

/-- `PositionTracker.add_trade(quantity, price)`: dispatch on the sign of the
quantity (a non-positive quantity goes through the sell path with its absolute
value), then add the signed quantity to the position. -/
def PositionTracker.add_trade (quantity : Int) (price : ℚ) (s : PositionTracker) :
    PositionTracker :=
  let s1 := if 0 < quantity then s.process_buy quantity price
            else s.process_sell |quantity| price
  { s1 with position := s1.position + quantity }

/-- `PositionTracker.get_unrealized_pnl(current_price)`. -/
def PositionTracker.get_unrealized_pnl (current_price : ℚ) (s : PositionTracker) : ℚ :=
  (s.long_queue.map (fun l => (l.1 : ℚ) * (current_price - l.2))).sum
    + (s.short_queue.map (fun l => (l.1 : ℚ) * (l.2 - current_price))).sum

/-- `PositionTracker.get_average_cost()`. -/
def PositionTracker.get_average_cost (s : PositionTracker) : ℚ :=
  if s.position = 0 then 0
  else
    let total_cost := (s.long_queue.map (fun l => (l.1 : ℚ) * l.2)).sum
      + (s.short_queue.map (fun l => (l.1 : ℚ) * l.2)).sum
    let total_qty := (s.long_queue.map (·.1)).sum + (s.short_queue.map (·.1)).sum
    if 0 < total_qty then total_cost / (total_qty : ℚ) else 0

/-- Sum of the lot quantities of a queue. -/
def lotSum (q : List (Int × ℚ)) : Int := (q.map (·.1)).sum

/-- Replay a list of (quantity, price) fills through `add_trade`. -/
def applyFills : List (Int × ℚ) → PositionTracker → PositionTracker
  | [], s => s
  | (q, p) :: rest, s => applyFills rest (s.add_trade q p)

/-! ### Order book

Python represents each side of the book as a dict from price to volume.  We
embed a dict as an association list with first-occurrence lookup, replace and
erase; reachable books have pairwise-distinct keys, mirroring dict keys. -/

/-- Dict lookup (first occurrence; 0 for an absent key — the code only looks
up keys that are present). -/
def lookupA : List (Int × Int) → Int → Int
  | [], _ => 0
  | (k, v) :: rest, p => if k = p then v else lookupA rest p

/-- Dict assignment: replace the first occurrence, else append. -/
def setA : List (Int × Int) → Int → Int → List (Int × Int)
  | [], p, v => [(p, v)]
  | (k, w) :: rest, p, v => if k = p then (p, v) :: rest else (k, w) :: setA rest p v

/-- Dict deletion: remove the first occurrence of the key. -/
def eraseA : List (Int × Int) → Int → List (Int × Int)
  | [], _ => []
  | (k, w) :: rest, p => if k = p then rest else (k, w) :: eraseA rest p

/-- The keys of a side of the book. -/
def keysA (l : List (Int × Int)) : List Int := l.map Prod.fst

/-- Total resting volume on a side of the book. -/
def volSum (l : List (Int × Int)) : Int := (l.map Prod.snd).sum

/-- `OrderBook`: buy (bid) and sell (ask) sides, price -> volume. -/
structure OrderBook where
  buy_orders : List (Int × Int)
  sell_orders : List (Int × Int)
deriving DecidableEq, Repr

/-- One market-data row: up to 3 bid and ask levels; `none` models an absent
(empty-string, hence falsy) field.  An absent volume under a present price is
stored as volume 0 by the code. -/
structure PriceRow where
  bid_price : Fin 3 → Option Int
  bid_volume : Fin 3 → Option Int
  ask_price : Fin 3 → Option Int
  ask_volume : Fin 3 → Option Int

/-- One iteration of the insert loop of `update_from_price_row`: skip the
level if the price field is absent, else store the volume (0 if absent). -/
def insertLevel (side : List (Int × Int)) (pr vol : Option Int) : List (Int × Int) :=
  match pr with
  | none => side
  | some p => setA side p (vol.getD 0)

/-- `OrderBook.update_from_price_row(row)`: clear both sides, then insert the
row's levels for i = 1, 2, 3.  The prior book is discarded entirely. -/
def OrderBook.update_from_price_row (_b : OrderBook) (row : PriceRow) : OrderBook :=
  { buy_orders := insertLevel (insertLevel (insertLevel []
      (row.bid_price 0) (row.bid_volume 0)) (row.bid_price 1) (row.bid_volume 1))
      (row.bid_price 2) (row.bid_volume 2)
    sell_orders := insertLevel (insertLevel (insertLevel []
      (row.ask_price 0) (row.ask_volume 0)) (row.ask_price 1) (row.ask_volume 1))
      (row.ask_price 2) (row.ask_volume 2) }

/-! ### Matching engine -/

/-- `Order`: strategy-issued limit order; positive quantity = buy. -/
structure OrderL where
  symbol : String
  price : Int
  quantity : Int
deriving DecidableEq, Repr

/-- `Trade`: a historical market trade at a tick; quantity is consumed in
place during matching. -/
structure TradeL where
  timestamp : Int
  price : Int
  quantity : Int
deriving DecidableEq, Repr

/-- The per-product state read and mutated by `_match_product_orders`:
the product's order book, the remaining historical trades of the tick, the
legacy position and PnL accumulators and the FIFO tracker. -/
structure MatchState where
  buy_orders : List (Int × Int)
  sell_orders : List (Int × Int)
  trades : List TradeL
  position : Int
  pnl : ℚ
  tracker : PositionTracker
deriving DecidableEq, Repr

/-- `sorted(p for p in orderbook.sell_orders if p <= order.price)`. -/
def eligibleSellPrices (side : List (Int × Int)) (limit : Int) : List Int :=
  ((keysA side).filter (fun p => p ≤ limit)).insertionSort (· ≤ ·)

/-- `sorted((p for p in orderbook.buy_orders if p >= order.price), reverse=True)`. -/
def eligibleBuyPrices (side : List (Int × Int)) (limit : Int) : List Int :=
  ((keysA side).filter (fun p => limit ≤ p)).insertionSort (· ≥ ·)

/-- The ask-level loop of a buy order: walk the eligible prices, fill
`min(qty_to_fill - filled, avail)` at each, skip non-positive fills, update
position/pnl/tracker, decrement the level (deleting it at zero) and stop once
`filled == qty_to_fill`.  Returns the filled total and the updated state. -/
def fillBookBuy (qty_to_fill : Int) : List Int → Int → MatchState → Int × MatchState
  | [], filled, st => (filled, st)
  | sp :: rest, filled, st =>
    let avail := lookupA st.sell_orders sp
    let fill := min (qty_to_fill - filled) avail
    if fill ≤ 0 then fillBookBuy qty_to_fill rest filled st
    else
      let filled' := filled + fill
      let st' := { st with
        position := st.position + fill
        pnl := st.pnl - (fill : ℚ) * (sp : ℚ)
        tracker := st.tracker.add_trade fill (sp : ℚ)
        sell_orders := if avail - fill = 0 then eraseA st.sell_orders sp
                       else setA st.sell_orders sp (avail - fill) }
      if filled' = qty_to_fill then (filled', st') else fillBookBuy qty_to_fill rest filled' st'

/-- The bid-level loop of a sell order (mirror image of `fillBookBuy`). -/
def fillBookSell (qty_to_fill : Int) : List Int → Int → MatchState → Int × MatchState
  | [], filled, st => (filled, st)
  | bp :: rest, filled, st =>
    let avail := lookupA st.buy_orders bp
    let fill := min (qty_to_fill - filled) avail
    if fill ≤ 0 then fillBookSell qty_to_fill rest filled st
    else
      let filled' := filled + fill
      let st' := { st with
        position := st.position - fill
        pnl := st.pnl + (fill : ℚ) * (bp : ℚ)
        tracker := st.tracker.add_trade (-fill) (bp : ℚ)
        buy_orders := if avail - fill = 0 then eraseA st.buy_orders bp
                      else setA st.buy_orders bp (avail - fill) }
      if filled' = qty_to_fill then (filled', st') else fillBookSell qty_to_fill rest filled' st'

/-- The historical-trade loop of a buy order: for each trade (in given order)
whose price is within the limit while the order is not yet filled, consume
`min(qty_to_fill - filled, trade.quantity)`, mutate the trade's quantity in
place, remove it from the tick's list when it reaches zero, and stop once
filled.  Returns the filled total, the remaining trade list and the state. -/
def fillTradesBuy (limitPrice qty_to_fill : Int) :
    List TradeL → Int → MatchState → Int × List TradeL × MatchState
  | [], filled, st => (filled, [], st)
  | t :: rest, filled, st =>
    if t.price ≤ limitPrice ∧ filled < qty_to_fill then
      let fill := min (qty_to_fill - filled) t.quantity
      let filled' := filled + fill
      let st' := { st with
        position := st.position + fill
        pnl := st.pnl - (fill : ℚ) * (t.price : ℚ)
        tracker := st.tracker.add_trade fill (t.price : ℚ) }
      let keep : List TradeL :=
        if t.quantity - fill = 0 then [] else [{ t with quantity := t.quantity - fill }]
      if filled' = qty_to_fill then (filled', keep ++ rest, st')
      else
        let r := fillTradesBuy limitPrice qty_to_fill rest filled' st'
        (r.1, keep ++ r.2.1, r.2.2)
    else
      let r := fillTradesBuy limitPrice qty_to_fill rest filled st
      (r.1, t :: r.2.1, r.2.2)

/-- The historical-trade loop of a sell order (mirror image). -/
def fillTradesSell (limitPrice qty_to_fill : Int) :
    List TradeL → Int → MatchState → Int × List TradeL × MatchState
  | [], filled, st => (filled, [], st)
  | t :: rest, filled, st =>
    if limitPrice ≤ t.price ∧ filled < qty_to_fill then
      let fill := min (qty_to_fill - filled) t.quantity
      let filled' := filled + fill
      let st' := { st with
        position := st.position - fill
        pnl := st.pnl + (fill : ℚ) * (t.price : ℚ)
        tracker := st.tracker.add_trade (-fill) (t.price : ℚ) }
      let keep : List TradeL :=
        if t.quantity - fill = 0 then [] else [{ t with quantity := t.quantity - fill }]
      if filled' = qty_to_fill then (filled', keep ++ rest, st')
      else
        let r := fillTradesSell limitPrice qty_to_fill rest filled' st'
        (r.1, keep ++ r.2.1, r.2.2)
    else
      let r := fillTradesSell limitPrice qty_to_fill rest filled st
      (r.1, t :: r.2.1, r.2.2)

/-- Python truthiness of the strategy's `max_pos` override: `None` and `0`
are falsy, any other integer is truthy. -/
def truthy : Option Int → Bool
  | none => false
  | some v => v != 0

/-- The matching phases of one buy order (lines 268-308): cross the eligible
ask levels, then the tick's historical trades with price within the limit,
threading the filled count and the per-product state. -/
def crossBuy (limitPrice qty_to_fill : Int) (st : MatchState) : Int × MatchState :=
  let r1 := fillBookBuy qty_to_fill (eligibleSellPrices st.sell_orders limitPrice) 0 st
  let r2 := fillTradesBuy limitPrice qty_to_fill r1.2.trades r1.1 r1.2
  (r2.1, { r2.2.2 with trades := r2.2.1 })

/-- The matching phases of one sell order (lines 310-350). -/
def crossSell (limitPrice qty_to_fill : Int) (st : MatchState) : Int × MatchState :=
  let r1 := fillBookSell qty_to_fill (eligibleBuyPrices st.buy_orders limitPrice) 0 st
  let r2 := fillTradesSell limitPrice qty_to_fill r1.2.trades r1.1 r1.2
  (r2.1, { r2.2.2 with trades := r2.2.1 })

/-- The body of the per-order loop of `_match_product_orders`: enforce the
position limit (override when truthy, else the product's fixed limit), skip
the order when no room remains, cross the book, then the historical trades.
Returns the order's filled total and the updated per-product state. -/
def matchOneOrder (posLimit : Int) (maxPos : Option Int) (o : OrderL) (st : MatchState) :
    Int × MatchState :=
  let qty0 := |o.quantity|
  let current := st.position
  if 0 < o.quantity then
    let max_allowed := if truthy maxPos then (maxPos.getD 0) - current else posLimit - current
    if max_allowed ≤ 0 then (0, st)
    else crossBuy o.price (min qty0 max_allowed) st
  else
    let max_allowed := if truthy maxPos then current + (maxPos.getD 0) else current + posLimit
    if max_allowed ≤ 0 then (0, st)
    else crossSell o.price (min qty0 max_allowed) st

/-- The per-order loop over one product's orders of a tick: each order sees
the book and trade liquidity left by the previous ones. -/
def match_product_orders (posLimit : Int) (maxPos : Option Int) :
    List OrderL → MatchState → MatchState
  | [], st => st
  | o :: rest, st => match_product_orders posLimit maxPos rest (matchOneOrder posLimit maxPos o st).2


/-! ### Simulation driver: mid price, per-tick recording, liquidation -/

/-- Maximum of the keys of a non-empty side (`max(dict.keys())`). -/
def maxKeyA : List (Int × Int) → Int
  | [] => 0
  | (k, _) :: rest => (keysA rest).foldl max k

/-- Minimum of the keys of a non-empty side (`min(dict.keys())`). -/
def minKeyA : List (Int × Int) → Int
  | [] => 0
  | (k, _) :: rest => (keysA rest).foldl min k

/-- `get_mid_price(product)`: `(best_bid + best_ask) / 2`, or the fixed
fallback 10000 whenever either side of the book is empty. -/
def get_mid_price (b : OrderBook) : ℚ :=
  if b.buy_orders = [] ∨ b.sell_orders = [] then 10000
  else ((maxKeyA b.buy_orders : ℚ) + (minKeyA b.sell_orders : ℚ)) / 2

/-- The per-product slice of the backtester's state that the per-tick
recording and the final liquidation read and write. -/
structure ProdState where
  book : OrderBook
  tracker : PositionTracker
  position : Int
  pnl : ℚ
  position_history : List Int
  pnl_history : List ℚ
  realized_pnl_history : List ℚ
  unrealized_pnl_history : List ℚ
  total_pnl_history : List ℚ
  mid_price_history : List ℚ
deriving DecidableEq, Repr

/-- The per-tick metric recording of `run` (one product): compute the mid
price once, read realized PnL, compute unrealized PnL at that same mid, and
append one entry to each of the six per-product history series. -/
def recordTick (p : ProdState) : ProdState :=
  let mid_price := get_mid_price p.book
  let realized_pnl := p.tracker.realized_pnl
  let unrealized_pnl := p.tracker.get_unrealized_pnl mid_price
  let total_pnl := realized_pnl + unrealized_pnl
  { p with
    position_history := p.position_history ++ [p.position]
    pnl_history := p.pnl_history ++ [p.pnl]
    realized_pnl_history := p.realized_pnl_history ++ [realized_pnl]
    unrealized_pnl_history := p.unrealized_pnl_history ++ [unrealized_pnl]
    total_pnl_history := p.total_pnl_history ++ [total_pnl]
    mid_price_history := p.mid_price_history ++ [mid_price] }

/-- The position-clearing step of the auto-liquidation block of `run` (one
product): if the position is non-zero, apply one closing fill of the negated
position at the product's current mid price through the FIFO tracker, adjust
the legacy PnL accumulator, and zero the position. -/
def clearProduct (p : ProdState) : ProdState :=
  if p.position ≠ 0 then
    let last_mid_price := get_mid_price p.book
    { p with
      tracker := p.tracker.add_trade (-p.position) last_mid_price
      pnl := p.pnl + (if p.position < 0 then (p.position : ℚ) * last_mid_price
                      else -(p.position : ℚ) * last_mid_price)
      position := 0 }
  else p

/-- The per-product history appends of the synthetic liquidation tick:
position is recorded as the literal 0, the other series from the cleared
tracker at the current mid price. -/
def appendFinal (p : ProdState) : ProdState :=
  let mid := get_mid_price p.book
  { p with
    position_history := p.position_history ++ [0]
    pnl_history := p.pnl_history ++ [p.pnl]
    realized_pnl_history := p.realized_pnl_history ++ [p.tracker.realized_pnl]
    unrealized_pnl_history := p.unrealized_pnl_history ++ [p.tracker.get_unrealized_pnl mid]
    total_pnl_history := p.total_pnl_history
      ++ [p.tracker.realized_pnl + p.tracker.get_unrealized_pnl mid]
    mid_price_history := p.mid_price_history ++ [mid] }

/-- The run-wide state touched by the auto-clearing block at the end of
`run`: all products plus the run-wide history series. -/
structure BTState where
  products : List ProdState
  timestamps : List Int
  overall_realized_pnl_history : List ℚ
  overall_unrealized_pnl_history : List ℚ
  overall_pnl_history : List ℚ
deriving DecidableEq, Repr

/-- The auto-clearing block at the end of `run` (lines 416-454): when at
least one tick was replayed, clear every product's position at its mid price,
recompute the run-wide realized/unrealized totals, append the synthetic
timestamp `last + 1` and append one final entry to every history series. -/
def autoClear (s : BTState) : BTState :=
  match s.timestamps.getLast? with
  | none => s
  | some last_ts =>
    let cleared := s.products.map clearProduct
    let overall_final_realized := (cleared.map (fun p => p.tracker.realized_pnl)).sum
    let overall_final_unrealized :=
      (cleared.map (fun p => p.tracker.get_unrealized_pnl (get_mid_price p.book))).sum
    { products := cleared.map appendFinal
      timestamps := s.timestamps ++ [last_ts + 1]
      overall_realized_pnl_history := s.overall_realized_pnl_history ++ [overall_final_realized]
      overall_unrealized_pnl_history :=
        s.overall_unrealized_pnl_history ++ [overall_final_unrealized]
      overall_pnl_history :=
        s.overall_pnl_history ++ [overall_final_realized + overall_final_unrealized] }

/-! ### Lemmas about the FIFO tracker -/

@[simp]
theorem lotSum_nil : lotSum [] = 0 := rfl

@[simp]
theorem lotSum_cons (a : Int × ℚ) (t : List (Int × ℚ)) : lotSum (a :: t) = a.1 + lotSum t := by
  simp [lotSum]

@[simp]
theorem lotSum_append (l t : List (Int × ℚ)) : lotSum (l ++ t) = lotSum l + lotSum t := by
  simp [lotSum]

theorem drainShort_sum (price : ℚ) (q : List (Int × ℚ)) :
    ∀ r pn, lotSum (drainShort price r q pn).2.1 + r
      = lotSum q + (drainShort price r q pn).1 := by
  induction q with
  | nil => intro r pn; simp [drainShort]
  | cons hd tl ih =>
    intro r pn
    obtain ⟨sq, sp⟩ := hd
    simp only [drainShort]
    split_ifs with h1 h2
    · simp
    · have h := ih (r - sq) (pn + (sq : ℚ) * (sp - price))
      simp only [lotSum_cons] at h ⊢
      omega
    · simp only [lotSum_cons]
      omega

theorem drainShort_nonneg (price : ℚ) (q : List (Int × ℚ)) :
    ∀ r pn, 0 ≤ r → 0 ≤ (drainShort price r q pn).1 := by
  induction q with
  | nil => intro r pn hr; simpa [drainShort] using hr
  | cons hd tl ih =>
    intro r pn hr
    obtain ⟨sq, sp⟩ := hd
    simp only [drainShort]
    split_ifs with h1 h2
    · exact hr
    · exact ih _ _ (by omega)
    · omega

theorem drainShort_pos_empty (price : ℚ) (q : List (Int × ℚ)) :
    ∀ r pn, 0 < (drainShort price r q pn).1 → (drainShort price r q pn).2.1 = [] := by
  induction q with
  | nil => intro r pn _; simp [drainShort]
  | cons hd tl ih =>
    intro r pn hpos
    obtain ⟨sq, sp⟩ := hd
    simp only [drainShort] at hpos ⊢
    split_ifs at hpos ⊢ with h1 h2
    · omega
    · exact ih _ _ hpos
    · omega

theorem drainShort_ne_nil (price : ℚ) (q : List (Int × ℚ)) (r : Int) (pn : ℚ)
    (h : (drainShort price r q pn).2.1 ≠ []) : q ≠ [] := by
  intro hq
  subst hq
  simp [drainShort] at h

theorem drainLong_sum (price : ℚ) (q : List (Int × ℚ)) :
    ∀ r pn, lotSum (drainLong price r q pn).2.1 + r
      = lotSum q + (drainLong price r q pn).1 := by
  induction q with
  | nil => intro r pn; simp [drainLong]
  | cons hd tl ih =>
    intro r pn
    obtain ⟨lq, lp⟩ := hd
    simp only [drainLong]
    split_ifs with h1 h2
    · simp
    · have h := ih (r - lq) (pn + (lq : ℚ) * (price - lp))
      simp only [lotSum_cons] at h ⊢
      omega
    · simp only [lotSum_cons]
      omega

theorem drainLong_nonneg (price : ℚ) (q : List (Int × ℚ)) :
    ∀ r pn, 0 ≤ r → 0 ≤ (drainLong price r q pn).1 := by
  induction q with
  | nil => intro r pn hr; simpa [drainLong] using hr
  | cons hd tl ih =>
    intro r pn hr
    obtain ⟨lq, lp⟩ := hd
    simp only [drainLong]
    split_ifs with h1 h2
    · exact hr
    · exact ih _ _ (by omega)
    · omega

theorem drainLong_pos_empty (price : ℚ) (q : List (Int × ℚ)) :
    ∀ r pn, 0 < (drainLong price r q pn).1 → (drainLong price r q pn).2.1 = [] := by
  induction q with
  | nil => intro r pn _; simp [drainLong]
  | cons hd tl ih =>
    intro r pn hpos
    obtain ⟨lq, lp⟩ := hd
    simp only [drainLong] at hpos ⊢
    split_ifs at hpos ⊢ with h1 h2
    · omega
    · exact ih _ _ hpos
    · omega

theorem drainLong_ne_nil (price : ℚ) (q : List (Int × ℚ)) (r : Int) (pn : ℚ)
    (h : (drainLong price r q pn).2.1 ≠ []) : q ≠ [] := by
  intro hq
  subst hq
  simp [drainLong] at h

theorem add_trade_position (q : Int) (p : ℚ) (s : PositionTracker) :
    (s.add_trade q p).position = s.position + q := by
  unfold PositionTracker.add_trade
  split <;> rfl

/-- One `add_trade` call preserves position = sum(long) - sum(short). -/
theorem add_trade_conserve (q : Int) (p : ℚ) (s : PositionTracker)
    (h : s.position = lotSum s.long_queue - lotSum s.short_queue) :
    (s.add_trade q p).position
      = lotSum (s.add_trade q p).long_queue - lotSum (s.add_trade q p).short_queue := by
  unfold PositionTracker.add_trade
  split
  case isTrue hq =>
    have hsum := drainShort_sum p s.short_queue q s.realized_pnl
    have hnn := drainShort_nonneg p s.short_queue q s.realized_pnl (by omega)
    unfold PositionTracker.process_buy
    obtain ⟨pos, rp, lq, sq⟩ := s
    simp only at hsum hnn h ⊢
    split_ifs with hd <;> simp [lotSum] at * <;> omega
  case isFalse hq =>
    have hsum := drainLong_sum p s.long_queue |q| s.realized_pnl
    have hnn := drainLong_nonneg p s.long_queue |q| s.realized_pnl (abs_nonneg q)
    have habs : |q| = -q := abs_of_nonpos (by omega)
    unfold PositionTracker.process_sell
    obtain ⟨pos, rp, lq, sq⟩ := s
    simp only at hsum hnn h ⊢
    split_ifs with hd <;> simp [lotSum] at hsum hnn h ⊢ <;> omega

/-- One `add_trade` call preserves the no-straddle property. -/
theorem add_trade_no_straddle (q : Int) (p : ℚ) (s : PositionTracker)
    (h : s.long_queue = [] ∨ s.short_queue = []) :
    (s.add_trade q p).long_queue = [] ∨ (s.add_trade q p).short_queue = [] := by
  unfold PositionTracker.add_trade
  split
  case isTrue hq =>
    unfold PositionTracker.process_buy
    simp only
    split_ifs with hd
    · right
      exact drainShort_pos_empty p s.short_queue q s.realized_pnl hd
    · rcases h with hL | hS
      · by_cases hne : (drainShort p q s.short_queue s.realized_pnl).2.1 = []
        · right; exact hne
        · left; exact hL
      · right
        rw [hS]
        simp [drainShort]
  case isFalse hq =>
    unfold PositionTracker.process_sell
    simp only
    split_ifs with hd
    · left
      exact drainLong_pos_empty p s.long_queue |q| s.realized_pnl hd
    · rcases h with hL | hS
      · left
        rw [hL]
        simp [drainLong]
      · by_cases hne : (drainLong p |q| s.long_queue s.realized_pnl).2.1 = []
        · left; exact hne
        · right; exact hS

theorem applyFills_conserve (fills : List (Int × ℚ)) :
    ∀ s : PositionTracker, s.position = lotSum s.long_queue - lotSum s.short_queue →
      (applyFills fills s).position
        = lotSum (applyFills fills s).long_queue - lotSum (applyFills fills s).short_queue := by
  induction fills with
  | nil => intro s h; exact h
  | cons f rest ih =>
    intro s h
    exact ih (s.add_trade f.1 f.2) (add_trade_conserve f.1 f.2 s h)

theorem applyFills_no_straddle (fills : List (Int × ℚ)) :
    ∀ s : PositionTracker, (s.long_queue = [] ∨ s.short_queue = []) →
      ((applyFills fills s).long_queue = [] ∨ (applyFills fills s).short_queue = []) := by
  induction fills with
  | nil => intro s h; exact h
  | cons f rest ih =>
    intro s h
    exact ih (s.add_trade f.1 f.2) (add_trade_no_straddle f.1 f.2 s h)

/-- C1: for every sequence of fills applied through `PositionTracker.add_trade`
starting from the fresh tracker, the position equals the sum of the long-queue
quantities minus the sum of the short-queue quantities.  (The state after any
call of any sequence is `applyFills fills PositionTracker.init` for the list
`fills` of calls made so far, so this covers the state after every call.) -/
theorem C1_position_is_queue_difference (fills : List (Int × ℚ)) :
    (applyFills fills PositionTracker.init).position
      = lotSum (applyFills fills PositionTracker.init).long_queue
        - lotSum (applyFills fills PositionTracker.init).short_queue :=
  applyFills_conserve fills PositionTracker.init rfl

/-- C2: for every sequence of fills applied through `PositionTracker.add_trade`
starting from the fresh tracker, the long queue and the short queue are never
both non-empty (an opposing fill drains the other side before a new lot is
appended, and a new lot is only appended once the other side is empty). -/
theorem C2_no_straddling (fills : List (Int × ℚ)) :
    (applyFills fills PositionTracker.init).long_queue = []
      ∨ (applyFills fills PositionTracker.init).short_queue = [] :=
  applyFills_no_straddle fills PositionTracker.init (Or.inl rfl)

/-- C3: selling 12 at price 105 against long lots [(10, 100), (5, 110)]
(position 15, realized PnL 0, empty short queue) realizes exactly
10 * (105 - 100) + 2 * (105 - 110) = 40, closing head-first in FIFO order,
and leaves the single long lot (3, 110), an empty short queue and position 3. -/
theorem C3_fifo_partial_close :
    PositionTracker.add_trade (-12) 105 ⟨15, 0, [(10, 100), (5, 110)], []⟩
      = ⟨3, 40, [(3, 110)], []⟩ := by
  simp only [PositionTracker.add_trade, PositionTracker.process_sell, drainLong]
  norm_num [drainLong]

/-! ### Lemmas about the association-list embedding of dicts -/

/-- Key membership (`p in dict`). -/
def hasKeyA : List (Int × Int) → Int → Bool
  | [], _ => false
  | (k, _) :: rest, p => k = p || hasKeyA rest p

theorem hasKeyA_iff_mem_keysA (l : List (Int × Int)) (p : Int) :
    hasKeyA l p = true ↔ p ∈ keysA l := by
  induction l with
  | nil => simp [hasKeyA, keysA]
  | cons hd tl ih =>
    obtain ⟨k, v⟩ := hd
    simp [hasKeyA, keysA, ih]
    tauto

theorem lookupA_setA_ne (l : List (Int × Int)) (k v p : Int) (h : p ≠ k) :
    lookupA (setA l k v) p = lookupA l p := by
  induction l with
  | nil =>
    simp only [setA, lookupA]
    split_ifs with h1
    · omega
    · rfl
  | cons hd tl ih =>
    obtain ⟨k', v'⟩ := hd
    simp only [setA]
    split_ifs with h1
    · subst h1
      simp only [lookupA]
      split_ifs with h2
      · omega
      · rfl
    · simp only [lookupA]
      split_ifs with h2
      · rfl
      · exact ih

theorem lookupA_eraseA_ne (l : List (Int × Int)) (k p : Int) (h : p ≠ k) :
    lookupA (eraseA l k) p = lookupA l p := by
  induction l with
  | nil => rfl
  | cons hd tl ih =>
    obtain ⟨k', v'⟩ := hd
    simp only [eraseA]
    split_ifs with h1
    · subst h1
      simp only [lookupA]
      split_ifs with h2
      · omega
      · rfl
    · simp only [lookupA]
      split_ifs with h2
      · rfl
      · exact ih

theorem hasKeyA_setA (l : List (Int × Int)) (k v p : Int) (h : hasKeyA l p = true) :
    hasKeyA (setA l k v) p = true := by
  induction l with
  | nil => simp [hasKeyA] at h
  | cons hd tl ih =>
    obtain ⟨k', v'⟩ := hd
    simp only [setA]
    split_ifs with h1
    · subst h1
      simpa [hasKeyA] using h
    · simp only [hasKeyA, Bool.or_eq_true, decide_eq_true_eq] at h ⊢
      rcases h with h | h
      · left; exact h
      · right; exact ih h

theorem hasKeyA_eraseA_ne (l : List (Int × Int)) (k p : Int) (hne : p ≠ k)
    (h : hasKeyA l p = true) : hasKeyA (eraseA l k) p = true := by
  induction l with
  | nil => simp [hasKeyA] at h
  | cons hd tl ih =>
    obtain ⟨k', v'⟩ := hd
    simp only [eraseA]
    split_ifs with h1
    · subst h1
      simp only [hasKeyA, Bool.or_eq_true, decide_eq_true_eq] at h
      rcases h with h | h
      · omega
      · exact h
    · simp only [hasKeyA, Bool.or_eq_true, decide_eq_true_eq] at h ⊢
      rcases h with h | h
      · left; exact h
      · right; exact ih h

theorem volSum_setA (l : List (Int × Int)) (k v : Int) (h : hasKeyA l k = true) :
    volSum (setA l k v) = volSum l - lookupA l k + v := by
  induction l with
  | nil => simp [hasKeyA] at h
  | cons hd tl ih =>
    obtain ⟨k', v'⟩ := hd
    simp only [setA]
    split_ifs with h1
    · subst h1
      simp [volSum, lookupA]
      omega
    · simp only [hasKeyA, Bool.or_eq_true, decide_eq_true_eq] at h
      rcases h with h | h
      · omega
      · have h2 := ih h
        simp only [volSum, lookupA, List.map_cons, List.sum_cons] at h2 ⊢
        omega

theorem volSum_eraseA (l : List (Int × Int)) (k : Int) (h : hasKeyA l k = true) :
    volSum (eraseA l k) = volSum l - lookupA l k := by
  induction l with
  | nil => simp [hasKeyA] at h
  | cons hd tl ih =>
    obtain ⟨k', v'⟩ := hd
    simp only [eraseA]
    split_ifs with h1
    · subst h1
      simp [volSum, lookupA]
    · simp only [hasKeyA, Bool.or_eq_true, decide_eq_true_eq] at h
      rcases h with h | h
      · omega
      · have h2 := ih h
        simp only [volSum, lookupA, List.map_cons, List.sum_cons] at h2 ⊢
        omega

theorem mem_setA (l : List (Int × Int)) (k v : Int) (pv : Int × Int)
    (h : pv ∈ setA l k v) : pv ∈ l ∨ pv = (k, v) := by
  induction l with
  | nil =>
    simp only [setA, List.mem_singleton] at h
    right; exact h
  | cons hd tl ih =>
    obtain ⟨k', v'⟩ := hd
    simp only [setA] at h
    split_ifs at h with h1
    · rcases List.mem_cons.mp h with h2 | h2
      · right; exact h2
      · left; exact List.mem_cons_of_mem _ h2
    · rcases List.mem_cons.mp h with h2 | h2
      · left; simp [h2]
      · rcases ih h2 with h3 | h3
        · left; exact List.mem_cons_of_mem _ h3
        · right; exact h3

theorem mem_eraseA (l : List (Int × Int)) (k : Int) (pv : Int × Int)
    (h : pv ∈ eraseA l k) : pv ∈ l := by
  induction l with
  | nil => simp [eraseA] at h
  | cons hd tl ih =>
    obtain ⟨k', v'⟩ := hd
    simp only [eraseA] at h
    split_ifs at h with h1
    · exact List.mem_cons_of_mem _ h
    · rcases List.mem_cons.mp h with h2 | h2
      · simp [h2]
      · exact List.mem_cons_of_mem _ (ih h2)

/-- Total quantity of a list of historical trades. -/
def tradeSum (l : List TradeL) : Int := (l.map (·.quantity)).sum


theorem fillBookBuy_le (qty : Int) (ps : List Int) :
    ∀ filled st, filled ≤ qty → (fillBookBuy qty ps filled st).1 ≤ qty := by
  induction ps with
  | nil => intro filled st h; exact h
  | cons sp rest ih =>
    intro filled st h
    simp only [fillBookBuy]
    split_ifs with h1 h2 h3
    · exact ih _ _ h
    · exact le_of_eq h2
    · exact le_of_eq h2
    · exact ih _ _ (by omega)
    · exact ih _ _ (by omega)

theorem fillBookBuy_frame (qty : Int) (ps : List Int) :
    ∀ filled st, (fillBookBuy qty ps filled st).2.trades = st.trades
      ∧ (fillBookBuy qty ps filled st).2.buy_orders = st.buy_orders := by
  induction ps with
  | nil => intro filled st; exact ⟨rfl, rfl⟩
  | cons sp rest ih =>
    intro filled st
    simp only [fillBookBuy]
    split_ifs with h1 h2 h3
    · exact ih _ _
    · exact ⟨rfl, rfl⟩
    · exact ⟨rfl, rfl⟩
    · exact ih _ _
    · exact ih _ _

theorem fillBookBuy_position (qty : Int) (ps : List Int) :
    ∀ filled st, (fillBookBuy qty ps filled st).2.position
      = st.position + ((fillBookBuy qty ps filled st).1 - filled) := by
  induction ps with
  | nil => intro filled st; simp [fillBookBuy]
  | cons sp rest ih =>
    intro filled st
    simp only [fillBookBuy]
    split_ifs with h1 h2 h3
    · have h4 := ih filled st
      omega
    · show _ = st.position + _
      simp only
      omega
    · show _ = st.position + _
      simp only
      omega
    · rw [ih]
      simp
      omega
    · rw [ih]
      simp
      omega

theorem fillBookBuy_volume (qty : Int) (ps : List Int) :
    ∀ filled st, ps.Nodup → (∀ p ∈ ps, hasKeyA st.sell_orders p = true) →
      volSum (fillBookBuy qty ps filled st).2.sell_orders
        = volSum st.sell_orders - ((fillBookBuy qty ps filled st).1 - filled) := by
  induction ps with
  | nil => intro filled st _ _; simp [fillBookBuy]
  | cons sp rest ih =>
    intro filled st hnd hkeys
    have hkey : hasKeyA st.sell_orders sp = true := hkeys sp (List.mem_cons_self sp rest)
    have hnd2 := (List.nodup_cons.mp hnd).2
    have hsp := (List.nodup_cons.mp hnd).1
    simp only [fillBookBuy]
    split_ifs with h1 h2 h3
    · exact ih filled st hnd2 (fun p hp => hkeys p (List.mem_cons_of_mem _ hp))
    · have he := volSum_eraseA st.sell_orders sp hkey
      simp
      omega
    · have hs := volSum_setA st.sell_orders sp
        (lookupA st.sell_orders sp - min (qty - filled) (lookupA st.sell_orders sp)) hkey
      simp
      omega
    · rw [ih]
      · have he := volSum_eraseA st.sell_orders sp hkey
        simp
        omega
      · exact hnd2
      · intro p hp
        have hne : p ≠ sp := fun hEq => hsp (hEq ▸ hp)
        simp
        exact hasKeyA_eraseA_ne _ _ _ hne (hkeys p (List.mem_cons_of_mem _ hp))
    · rw [ih]
      · have hs := volSum_setA st.sell_orders sp
          (lookupA st.sell_orders sp - min (qty - filled) (lookupA st.sell_orders sp)) hkey
        simp
        omega
      · exact hnd2
      · intro p hp
        have hne : p ≠ sp := fun hEq => hsp (hEq ▸ hp)
        simp
        exact hasKeyA_setA _ _ _ _ (hkeys p (List.mem_cons_of_mem _ hp))

theorem fillBookBuy_untouched (qty : Int) (ps : List Int) :
    ∀ filled st p, p ∉ ps →
      lookupA (fillBookBuy qty ps filled st).2.sell_orders p = lookupA st.sell_orders p := by
  induction ps with
  | nil => intro filled st p _; rfl
  | cons sp rest ih =>
    intro filled st p hp
    have hne : p ≠ sp := fun h => hp (h ▸ List.mem_cons_self sp rest)
    have hrest : p ∉ rest := fun h => hp (List.mem_cons_of_mem _ h)
    simp only [fillBookBuy]
    split_ifs with h1 h2 h3
    · exact ih filled st p hrest
    · simp
      exact lookupA_eraseA_ne _ _ _ hne
    · simp
      exact lookupA_setA_ne _ _ _ _ hne
    · rw [ih]
      · simp
        exact lookupA_eraseA_ne _ _ _ hne
      · exact hrest
    · rw [ih]
      · simp
        exact lookupA_setA_ne _ _ _ _ hne
      · exact hrest

theorem fillBookBuy_pos_levels (qty : Int) (ps : List Int) :
    ∀ filled st, (∀ pv ∈ st.sell_orders, 0 < pv.2) →
      ∀ pv ∈ (fillBookBuy qty ps filled st).2.sell_orders, 0 < pv.2 := by
  induction ps with
  | nil => intro filled st h; exact h
  | cons sp rest ih =>
    intro filled st hpos
    simp only [fillBookBuy]
    split_ifs with h1 h2 h3
    · exact ih filled st hpos
    · intro pv hpv
      simp at hpv
      exact hpos pv (mem_eraseA _ _ _ hpv)
    · intro pv hpv
      simp at hpv
      rcases mem_setA _ _ _ _ hpv with h | h
      · exact hpos pv h
      · rw [h]
        simp
        omega
    · exact ih _ _ (fun pv2 hpv2 => by
        simp at hpv2
        exact hpos pv2 (mem_eraseA _ _ _ hpv2))
    · exact ih _ _ (fun pv2 hpv2 => by
        simp at hpv2
        rcases mem_setA _ _ _ _ hpv2 with h | h
        · exact hpos pv2 h
        · rw [h]
          simp
          omega)


theorem fillBookSell_le (qty : Int) (ps : List Int) :
    ∀ filled st, filled ≤ qty → (fillBookSell qty ps filled st).1 ≤ qty := by
  induction ps with
  | nil => intro filled st h; exact h
  | cons sp rest ih =>
    intro filled st h
    simp only [fillBookSell]
    split_ifs with h1 h2 h3
    · exact ih _ _ h
    · exact le_of_eq h2
    · exact le_of_eq h2
    · exact ih _ _ (by omega)
    · exact ih _ _ (by omega)

theorem fillBookSell_frame (qty : Int) (ps : List Int) :
    ∀ filled st, (fillBookSell qty ps filled st).2.trades = st.trades
      ∧ (fillBookSell qty ps filled st).2.sell_orders = st.sell_orders := by
  induction ps with
  | nil => intro filled st; exact ⟨rfl, rfl⟩
  | cons sp rest ih =>
    intro filled st
    simp only [fillBookSell]
    split_ifs with h1 h2 h3
    · exact ih _ _
    · exact ⟨rfl, rfl⟩
    · exact ⟨rfl, rfl⟩
    · exact ih _ _
    · exact ih _ _

theorem fillBookSell_position (qty : Int) (ps : List Int) :
    ∀ filled st, (fillBookSell qty ps filled st).2.position
      = st.position - ((fillBookSell qty ps filled st).1 - filled) := by
  induction ps with
  | nil => intro filled st; simp [fillBookSell]
  | cons sp rest ih =>
    intro filled st
    simp only [fillBookSell]
    split_ifs with h1 h2 h3
    · have h4 := ih filled st
      omega
    · show _ = st.position - _
      simp only
      omega
    · show _ = st.position - _
      simp only
      omega
    · rw [ih]
      simp
      omega
    · rw [ih]
      simp
      omega

theorem fillBookSell_volume (qty : Int) (ps : List Int) :
    ∀ filled st, ps.Nodup → (∀ p ∈ ps, hasKeyA st.buy_orders p = true) →
      volSum (fillBookSell qty ps filled st).2.buy_orders
        = volSum st.buy_orders - ((fillBookSell qty ps filled st).1 - filled) := by
  induction ps with
  | nil => intro filled st _ _; simp [fillBookSell]
  | cons sp rest ih =>
    intro filled st hnd hkeys
    have hkey : hasKeyA st.buy_orders sp = true := hkeys sp (List.mem_cons_self sp rest)
    have hnd2 := (List.nodup_cons.mp hnd).2
    have hsp := (List.nodup_cons.mp hnd).1
    simp only [fillBookSell]
    split_ifs with h1 h2 h3
    · exact ih filled st hnd2 (fun p hp => hkeys p (List.mem_cons_of_mem _ hp))
    · have he := volSum_eraseA st.buy_orders sp hkey
      simp
      omega
    · have hs := volSum_setA st.buy_orders sp
        (lookupA st.buy_orders sp - min (qty - filled) (lookupA st.buy_orders sp)) hkey
      simp
      omega
    · rw [ih]
      · have he := volSum_eraseA st.buy_orders sp hkey
        simp
        omega
      · exact hnd2
      · intro p hp
        have hne : p ≠ sp := fun hEq => hsp (hEq ▸ hp)
        simp
        exact hasKeyA_eraseA_ne _ _ _ hne (hkeys p (List.mem_cons_of_mem _ hp))
    · rw [ih]
      · have hs := volSum_setA st.buy_orders sp
          (lookupA st.buy_orders sp - min (qty - filled) (lookupA st.buy_orders sp)) hkey
        simp
        omega
      · exact hnd2
      · intro p hp
        have hne : p ≠ sp := fun hEq => hsp (hEq ▸ hp)
        simp
        exact hasKeyA_setA _ _ _ _ (hkeys p (List.mem_cons_of_mem _ hp))

theorem fillBookSell_untouched (qty : Int) (ps : List Int) :
    ∀ filled st p, p ∉ ps →
      lookupA (fillBookSell qty ps filled st).2.buy_orders p = lookupA st.buy_orders p := by
  induction ps with
  | nil => intro filled st p _; rfl
  | cons sp rest ih =>
    intro filled st p hp
    have hne : p ≠ sp := fun h => hp (h ▸ List.mem_cons_self sp rest)
    have hrest : p ∉ rest := fun h => hp (List.mem_cons_of_mem _ h)
    simp only [fillBookSell]
    split_ifs with h1 h2 h3
    · exact ih filled st p hrest
    · simp
      exact lookupA_eraseA_ne _ _ _ hne
    · simp
      exact lookupA_setA_ne _ _ _ _ hne
    · rw [ih]
      · simp
        exact lookupA_eraseA_ne _ _ _ hne
      · exact hrest
    · rw [ih]
      · simp
        exact lookupA_setA_ne _ _ _ _ hne
      · exact hrest

theorem fillBookSell_pos_levels (qty : Int) (ps : List Int) :
    ∀ filled st, (∀ pv ∈ st.buy_orders, 0 < pv.2) →
      ∀ pv ∈ (fillBookSell qty ps filled st).2.buy_orders, 0 < pv.2 := by
  induction ps with
  | nil => intro filled st h; exact h
  | cons sp rest ih =>
    intro filled st hpos
    simp only [fillBookSell]
    split_ifs with h1 h2 h3
    · exact ih filled st hpos
    · intro pv hpv
      simp at hpv
      exact hpos pv (mem_eraseA _ _ _ hpv)
    · intro pv hpv
      simp at hpv
      rcases mem_setA _ _ _ _ hpv with h | h
      · exact hpos pv h
      · rw [h]
        simp
        omega
    · exact ih _ _ (fun pv2 hpv2 => by
        simp at hpv2
        exact hpos pv2 (mem_eraseA _ _ _ hpv2))
    · exact ih _ _ (fun pv2 hpv2 => by
        simp at hpv2
        rcases mem_setA _ _ _ _ hpv2 with h | h
        · exact hpos pv2 h
        · rw [h]
          simp
          omega)

@[simp]
theorem tradeSum_nil : tradeSum [] = 0 := rfl

@[simp]
theorem tradeSum_cons (t : TradeL) (l : List TradeL) :
    tradeSum (t :: l) = t.quantity + tradeSum l := by
  simp [tradeSum]

@[simp]
theorem tradeSum_append (l t : List TradeL) : tradeSum (l ++ t) = tradeSum l + tradeSum t := by
  simp [tradeSum]

theorem fillTradesBuy_le (limit qty : Int) (ts : List TradeL) :
    ∀ filled st, filled ≤ qty → (fillTradesBuy limit qty ts filled st).1 ≤ qty := by
  induction ts with
  | nil => intro filled st h; exact h
  | cons t rest ih =>
    intro filled st h
    simp only [fillTradesBuy]
    split_ifs with h1 h2 h3
    · exact le_of_eq h2
    · exact le_of_eq h2
    · exact ih _ _ (by omega)
    · exact ih _ _ (by omega)
    · exact ih _ _ h

theorem fillTradesBuy_sum (limit qty : Int) (ts : List TradeL) :
    ∀ filled st, tradeSum (fillTradesBuy limit qty ts filled st).2.1
      = tradeSum ts - ((fillTradesBuy limit qty ts filled st).1 - filled) := by
  induction ts with
  | nil => intro filled st; simp [fillTradesBuy]
  | cons t rest ih =>
    intro filled st
    simp only [fillTradesBuy]
    split_ifs with h1 h2 h3
    · simp
      omega
    · simp
      omega
    · simp
      rw [ih]
      omega
    · simp
      rw [ih]
      omega
    · simp
      rw [ih]
      omega

theorem fillTradesBuy_position (limit qty : Int) (ts : List TradeL) :
    ∀ filled st, (fillTradesBuy limit qty ts filled st).2.2.position
      = st.position + ((fillTradesBuy limit qty ts filled st).1 - filled) := by
  induction ts with
  | nil => intro filled st; simp [fillTradesBuy]
  | cons t rest ih =>
    intro filled st
    simp only [fillTradesBuy]
    split_ifs with h1 h2 h3
    · show _ = st.position + _
      simp only
      omega
    · show _ = st.position + _
      simp only
      omega
    · rw [show ∀ r : Int × List TradeL × MatchState, (r.1, ([] : List TradeL) ++ r.2.1, r.2.2).2.2 = r.2.2 from fun r => rfl]
      rw [ih]
      simp
      omega
    · rw [ih]
      simp
      omega
    · rw [ih]

theorem fillTradesBuy_frame (limit qty : Int) (ts : List TradeL) :
    ∀ filled st, (fillTradesBuy limit qty ts filled st).2.2.buy_orders = st.buy_orders
      ∧ (fillTradesBuy limit qty ts filled st).2.2.sell_orders = st.sell_orders := by
  induction ts with
  | nil => intro filled st; exact ⟨rfl, rfl⟩
  | cons t rest ih =>
    intro filled st
    simp only [fillTradesBuy]
    split_ifs with h1 h2 h3
    · exact ⟨rfl, rfl⟩
    · exact ⟨rfl, rfl⟩
    · exact ih _ _
    · exact ih _ _
    · exact ih _ _

theorem fillTradesBuy_positive (limit qty : Int) (ts : List TradeL) :
    ∀ filled st, (∀ t2 ∈ ts, 0 < t2.quantity) →
      ∀ t2 ∈ (fillTradesBuy limit qty ts filled st).2.1, 0 < t2.quantity := by
  induction ts with
  | nil => intro filled st _ t2 h2; simp [fillTradesBuy] at h2
  | cons t rest ih =>
    intro filled st hpos
    have hrest : ∀ t2 ∈ rest, 0 < t2.quantity :=
      fun t2 h2 => hpos t2 (List.mem_cons_of_mem _ h2)
    simp only [fillTradesBuy]
    split_ifs with h1 h2 h3
    · intro t2 h4
      simp at h4
      exact hrest t2 h4
    · intro t2 h4
      simp at h4
      rcases h4 with h4 | h4
      · rw [h4]
        have := hpos t (List.mem_cons_self t rest)
        simp
        omega
      · exact hrest t2 h4
    · intro t2 h4
      simp at h4
      exact ih _ _ hrest t2 h4
    · intro t2 h4
      simp at h4
      rcases h4 with h4 | h4
      · rw [h4]
        have := hpos t (List.mem_cons_self t rest)
        simp
        omega
      · exact ih _ _ hrest t2 h4
    · intro t2 h4
      simp at h4
      rcases h4 with h4 | h4
      · rw [h4]
        exact hpos t (List.mem_cons_self t rest)
      · exact ih _ _ hrest t2 h4


theorem fillTradesSell_le (limit qty : Int) (ts : List TradeL) :
    ∀ filled st, filled ≤ qty → (fillTradesSell limit qty ts filled st).1 ≤ qty := by
  induction ts with
  | nil => intro filled st h; exact h
  | cons t rest ih =>
    intro filled st h
    simp only [fillTradesSell]
    split_ifs with h1 h2 h3
    · exact le_of_eq h2
    · exact le_of_eq h2
    · exact ih _ _ (by omega)
    · exact ih _ _ (by omega)
    · exact ih _ _ h

theorem fillTradesSell_sum (limit qty : Int) (ts : List TradeL) :
    ∀ filled st, tradeSum (fillTradesSell limit qty ts filled st).2.1
      = tradeSum ts - ((fillTradesSell limit qty ts filled st).1 - filled) := by
  induction ts with
  | nil => intro filled st; simp [fillTradesSell]
  | cons t rest ih =>
    intro filled st
    simp only [fillTradesSell]
    split_ifs with h1 h2 h3
    · simp
      omega
    · simp
      omega
    · simp
      rw [ih]
      omega
    · simp
      rw [ih]
      omega
    · simp
      rw [ih]
      omega

theorem fillTradesSell_position (limit qty : Int) (ts : List TradeL) :
    ∀ filled st, (fillTradesSell limit qty ts filled st).2.2.position
      = st.position - ((fillTradesSell limit qty ts filled st).1 - filled) := by
  induction ts with
  | nil => intro filled st; simp [fillTradesSell]
  | cons t rest ih =>
    intro filled st
    simp only [fillTradesSell]
    split_ifs with h1 h2 h3
    · show _ = st.position - _
      simp only
      omega
    · show _ = st.position - _
      simp only
      omega
    · rw [show ∀ r : Int × List TradeL × MatchState, (r.1, ([] : List TradeL) ++ r.2.1, r.2.2).2.2 = r.2.2 from fun r => rfl]
      rw [ih]
      simp
      omega
    · rw [ih]
      simp
      omega
    · rw [ih]

theorem fillTradesSell_frame (limit qty : Int) (ts : List TradeL) :
    ∀ filled st, (fillTradesSell limit qty ts filled st).2.2.buy_orders = st.buy_orders
      ∧ (fillTradesSell limit qty ts filled st).2.2.sell_orders = st.sell_orders := by
  induction ts with
  | nil => intro filled st; exact ⟨rfl, rfl⟩
  | cons t rest ih =>
    intro filled st
    simp only [fillTradesSell]
    split_ifs with h1 h2 h3
    · exact ⟨rfl, rfl⟩
    · exact ⟨rfl, rfl⟩
    · exact ih _ _
    · exact ih _ _
    · exact ih _ _

theorem fillTradesSell_positive (limit qty : Int) (ts : List TradeL) :
    ∀ filled st, (∀ t2 ∈ ts, 0 < t2.quantity) →
      ∀ t2 ∈ (fillTradesSell limit qty ts filled st).2.1, 0 < t2.quantity := by
  induction ts with
  | nil => intro filled st _ t2 h2; simp [fillTradesSell] at h2
  | cons t rest ih =>
    intro filled st hpos
    have hrest : ∀ t2 ∈ rest, 0 < t2.quantity :=
      fun t2 h2 => hpos t2 (List.mem_cons_of_mem _ h2)
    simp only [fillTradesSell]
    split_ifs with h1 h2 h3
    · intro t2 h4
      simp at h4
      exact hrest t2 h4
    · intro t2 h4
      simp at h4
      rcases h4 with h4 | h4
      · rw [h4]
        have := hpos t (List.mem_cons_self t rest)
        simp
        omega
      · exact hrest t2 h4
    · intro t2 h4
      simp at h4
      exact ih _ _ hrest t2 h4
    · intro t2 h4
      simp at h4
      rcases h4 with h4 | h4
      · rw [h4]
        have := hpos t (List.mem_cons_self t rest)
        simp
        omega
      · exact ih _ _ hrest t2 h4
    · intro t2 h4
      simp at h4
      rcases h4 with h4 | h4
      · rw [h4]
        exact hpos t (List.mem_cons_self t rest)
      · exact ih _ _ hrest t2 h4

theorem eligibleSellPrices_nodup (side : List (Int × Int)) (limit : Int)
    (h : (keysA side).Nodup) : (eligibleSellPrices side limit).Nodup := by
  unfold eligibleSellPrices
  exact ((List.perm_insertionSort _ _).nodup_iff).mpr (h.filter _)

theorem eligibleSellPrices_mem (side : List (Int × Int)) (limit p : Int)
    (hp : p ∈ eligibleSellPrices side limit) : hasKeyA side p = true ∧ p ≤ limit := by
  unfold eligibleSellPrices at hp
  have h1 := (List.perm_insertionSort _ _).mem_iff.mp hp
  have h2 := List.mem_filter.mp h1
  exact ⟨(hasKeyA_iff_mem_keysA _ _).mpr h2.1, by simpa using h2.2⟩

theorem eligibleBuyPrices_nodup (side : List (Int × Int)) (limit : Int)
    (h : (keysA side).Nodup) : (eligibleBuyPrices side limit).Nodup := by
  unfold eligibleBuyPrices
  exact ((List.perm_insertionSort _ _).nodup_iff).mpr (h.filter _)

theorem eligibleBuyPrices_mem (side : List (Int × Int)) (limit p : Int)
    (hp : p ∈ eligibleBuyPrices side limit) : hasKeyA side p = true ∧ limit ≤ p := by
  unfold eligibleBuyPrices at hp
  have h1 := (List.perm_insertionSort _ _).mem_iff.mp hp
  have h2 := List.mem_filter.mp h1
  exact ⟨(hasKeyA_iff_mem_keysA _ _).mpr h2.1, by simpa using h2.2⟩

theorem crossBuy_le (L qty : Int) (st : MatchState) (h0 : 0 ≤ qty) :
    (crossBuy L qty st).1 ≤ qty := by
  simp only [crossBuy]
  set r1 := fillBookBuy qty (eligibleSellPrices st.sell_orders L) 0 st with hr1
  have hb := fillBookBuy_le qty (eligibleSellPrices st.sell_orders L) 0 st h0
  rw [← hr1] at hb
  exact fillTradesBuy_le L qty r1.2.trades r1.1 r1.2 hb

theorem crossBuy_position (L qty : Int) (st : MatchState) :
    (crossBuy L qty st).2.position = st.position + (crossBuy L qty st).1 := by
  simp only [crossBuy]
  set r1 := fillBookBuy qty (eligibleSellPrices st.sell_orders L) 0 st with hr1
  have h1 := fillBookBuy_position qty (eligibleSellPrices st.sell_orders L) 0 st
  rw [← hr1] at h1
  have h2 := fillTradesBuy_position L qty r1.2.trades r1.1 r1.2
  simp only at h1 h2 ⊢
  omega

theorem crossBuy_conservation (L qty : Int) (st : MatchState)
    (hnd : (keysA st.sell_orders).Nodup) :
    (crossBuy L qty st).1
      = (volSum st.sell_orders - volSum (crossBuy L qty st).2.sell_orders)
        + (tradeSum st.trades - tradeSum (crossBuy L qty st).2.trades) := by
  simp only [crossBuy]
  set r1 := fillBookBuy qty (eligibleSellPrices st.sell_orders L) 0 st with hr1
  have hvol := fillBookBuy_volume qty (eligibleSellPrices st.sell_orders L) 0 st
    (eligibleSellPrices_nodup _ _ hnd)
    (fun p hp => (eligibleSellPrices_mem _ _ _ hp).1)
  rw [← hr1] at hvol
  have hfb := fillBookBuy_frame qty (eligibleSellPrices st.sell_orders L) 0 st
  rw [← hr1] at hfb
  have hsum := fillTradesBuy_sum L qty r1.2.trades r1.1 r1.2
  have hff := fillTradesBuy_frame L qty r1.2.trades r1.1 r1.2
  simp only at hvol hfb hsum hff ⊢
  rw [hff.2]
  have hts : tradeSum r1.2.trades = tradeSum st.trades := by rw [hfb.1]
  omega

theorem crossBuy_buy_orders (L qty : Int) (st : MatchState) :
    (crossBuy L qty st).2.buy_orders = st.buy_orders := by
  simp only [crossBuy]
  set r1 := fillBookBuy qty (eligibleSellPrices st.sell_orders L) 0 st with hr1
  have hfb := fillBookBuy_frame qty (eligibleSellPrices st.sell_orders L) 0 st
  rw [← hr1] at hfb
  have hff := fillTradesBuy_frame L qty r1.2.trades r1.1 r1.2
  rw [hff.1, hfb.2]

theorem crossBuy_untouched (L qty : Int) (st : MatchState) (p : Int) (hp : L < p) :
    lookupA (crossBuy L qty st).2.sell_orders p = lookupA st.sell_orders p := by
  simp only [crossBuy]
  set r1 := fillBookBuy qty (eligibleSellPrices st.sell_orders L) 0 st with hr1
  have hnm : p ∉ eligibleSellPrices st.sell_orders L := by
    intro hmem
    have := (eligibleSellPrices_mem _ _ _ hmem).2
    omega
  have hu := fillBookBuy_untouched qty (eligibleSellPrices st.sell_orders L) 0 st p hnm
  rw [← hr1] at hu
  have hff := fillTradesBuy_frame L qty r1.2.trades r1.1 r1.2
  rw [hff.2, hu]

theorem crossBuy_pos_levels (L qty : Int) (st : MatchState)
    (h : ∀ pv ∈ st.sell_orders, 0 < pv.2) :
    ∀ pv ∈ (crossBuy L qty st).2.sell_orders, 0 < pv.2 := by
  simp only [crossBuy]
  set r1 := fillBookBuy qty (eligibleSellPrices st.sell_orders L) 0 st with hr1
  have hp := fillBookBuy_pos_levels qty (eligibleSellPrices st.sell_orders L) 0 st h
  rw [← hr1] at hp
  have hff := fillTradesBuy_frame L qty r1.2.trades r1.1 r1.2
  intro pv hpv
  rw [hff.2] at hpv
  exact hp pv hpv

theorem crossBuy_trades_positive (L qty : Int) (st : MatchState)
    (h : ∀ t ∈ st.trades, 0 < t.quantity) :
    ∀ t ∈ (crossBuy L qty st).2.trades, 0 < t.quantity := by
  simp only [crossBuy]
  set r1 := fillBookBuy qty (eligibleSellPrices st.sell_orders L) 0 st with hr1
  have hfb := fillBookBuy_frame qty (eligibleSellPrices st.sell_orders L) 0 st
  rw [← hr1] at hfb
  have hpt := fillTradesBuy_positive L qty r1.2.trades r1.1 r1.2
    (by rw [hfb.1]; exact h)
  intro t ht
  exact hpt t ht

theorem crossSell_le (L qty : Int) (st : MatchState) (h0 : 0 ≤ qty) :
    (crossSell L qty st).1 ≤ qty := by
  simp only [crossSell]
  set r1 := fillBookSell qty (eligibleBuyPrices st.buy_orders L) 0 st with hr1
  have hb := fillBookSell_le qty (eligibleBuyPrices st.buy_orders L) 0 st h0
  rw [← hr1] at hb
  exact fillTradesSell_le L qty r1.2.trades r1.1 r1.2 hb

theorem crossSell_position (L qty : Int) (st : MatchState) :
    (crossSell L qty st).2.position = st.position - (crossSell L qty st).1 := by
  simp only [crossSell]
  set r1 := fillBookSell qty (eligibleBuyPrices st.buy_orders L) 0 st with hr1
  have h1 := fillBookSell_position qty (eligibleBuyPrices st.buy_orders L) 0 st
  rw [← hr1] at h1
  have h2 := fillTradesSell_position L qty r1.2.trades r1.1 r1.2
  simp only at h1 h2 ⊢
  omega

theorem crossSell_conservation (L qty : Int) (st : MatchState)
    (hnd : (keysA st.buy_orders).Nodup) :
    (crossSell L qty st).1
      = (volSum st.buy_orders - volSum (crossSell L qty st).2.buy_orders)
        + (tradeSum st.trades - tradeSum (crossSell L qty st).2.trades) := by
  simp only [crossSell]
  set r1 := fillBookSell qty (eligibleBuyPrices st.buy_orders L) 0 st with hr1
  have hvol := fillBookSell_volume qty (eligibleBuyPrices st.buy_orders L) 0 st
    (eligibleBuyPrices_nodup _ _ hnd)
    (fun p hp => (eligibleBuyPrices_mem _ _ _ hp).1)
  rw [← hr1] at hvol
  have hfb := fillBookSell_frame qty (eligibleBuyPrices st.buy_orders L) 0 st
  rw [← hr1] at hfb
  have hsum := fillTradesSell_sum L qty r1.2.trades r1.1 r1.2
  have hff := fillTradesSell_frame L qty r1.2.trades r1.1 r1.2
  simp only at hvol hfb hsum hff ⊢
  rw [hff.1]
  have hts : tradeSum r1.2.trades = tradeSum st.trades := by rw [hfb.1]
  omega

theorem crossSell_sell_orders (L qty : Int) (st : MatchState) :
    (crossSell L qty st).2.sell_orders = st.sell_orders := by
  simp only [crossSell]
  set r1 := fillBookSell qty (eligibleBuyPrices st.buy_orders L) 0 st with hr1
  have hfb := fillBookSell_frame qty (eligibleBuyPrices st.buy_orders L) 0 st
  rw [← hr1] at hfb
  have hff := fillTradesSell_frame L qty r1.2.trades r1.1 r1.2
  rw [hff.2, hfb.2]

theorem crossSell_untouched (L qty : Int) (st : MatchState) (p : Int) (hp : p < L) :
    lookupA (crossSell L qty st).2.buy_orders p = lookupA st.buy_orders p := by
  simp only [crossSell]
  set r1 := fillBookSell qty (eligibleBuyPrices st.buy_orders L) 0 st with hr1
  have hnm : p ∉ eligibleBuyPrices st.buy_orders L := by
    intro hmem
    have := (eligibleBuyPrices_mem _ _ _ hmem).2
    omega
  have hu := fillBookSell_untouched qty (eligibleBuyPrices st.buy_orders L) 0 st p hnm
  rw [← hr1] at hu
  have hff := fillTradesSell_frame L qty r1.2.trades r1.1 r1.2
  rw [hff.1, hu]

theorem crossSell_pos_levels (L qty : Int) (st : MatchState)
    (h : ∀ pv ∈ st.buy_orders, 0 < pv.2) :
    ∀ pv ∈ (crossSell L qty st).2.buy_orders, 0 < pv.2 := by
  simp only [crossSell]
  set r1 := fillBookSell qty (eligibleBuyPrices st.buy_orders L) 0 st with hr1
  have hp := fillBookSell_pos_levels qty (eligibleBuyPrices st.buy_orders L) 0 st h
  rw [← hr1] at hp
  have hff := fillTradesSell_frame L qty r1.2.trades r1.1 r1.2
  intro pv hpv
  rw [hff.1] at hpv
  exact hp pv hpv

theorem crossSell_trades_positive (L qty : Int) (st : MatchState)
    (h : ∀ t ∈ st.trades, 0 < t.quantity) :
    ∀ t ∈ (crossSell L qty st).2.trades, 0 < t.quantity := by
  simp only [crossSell]
  set r1 := fillBookSell qty (eligibleBuyPrices st.buy_orders L) 0 st with hr1
  have hfb := fillBookSell_frame qty (eligibleBuyPrices st.buy_orders L) 0 st
  rw [← hr1] at hfb
  have hpt := fillTradesSell_positive L qty r1.2.trades r1.1 r1.2
    (by rw [hfb.1]; exact h)
  intro t ht
  exact hpt t ht

/-- The remaining room under the position limit in the direction of the
order, exactly as computed at lines 250-266: the run-wide override when it is
truthy, else the product's fixed limit. -/
def effRoom (posLimit : Int) (maxPos : Option Int) (o : OrderL) (st : MatchState) : Int :=
  if 0 < o.quantity then
    if truthy maxPos then (maxPos.getD 0) - st.position else posLimit - st.position
  else
    if truthy maxPos then st.position + (maxPos.getD 0) else st.position + posLimit

theorem matchOneOrder_skip (posLimit : Int) (maxPos : Option Int) (o : OrderL)
    (st : MatchState) (hroom : effRoom posLimit maxPos o st ≤ 0) :
    matchOneOrder posLimit maxPos o st = (0, st) := by
  simp only [matchOneOrder]
  unfold effRoom at hroom
  split_ifs at hroom ⊢ <;> first | rfl | omega

theorem matchOneOrder_le (posLimit : Int) (maxPos : Option Int) (o : OrderL)
    (st : MatchState) :
    (matchOneOrder posLimit maxPos o st).1 ≤ max (effRoom posLimit maxPos o st) 0 := by
  simp only [matchOneOrder]
  unfold effRoom
  split_ifs with h1 h2 h3 h4 h5 h6
  · show (0:Int) ≤ max _ 0
    exact le_max_right _ 0
  · have hc := crossBuy_le o.price (min |o.quantity| ((maxPos.getD 0) - st.position)) st
      (le_min (abs_nonneg _) (by omega))
    omega
  · show (0:Int) ≤ max _ 0
    exact le_max_right _ 0
  · have hc := crossBuy_le o.price (min |o.quantity| (posLimit - st.position)) st
      (le_min (abs_nonneg _) (by omega))
    omega
  · show (0:Int) ≤ max _ 0
    exact le_max_right _ 0
  · have hc := crossSell_le o.price (min |o.quantity| (st.position + (maxPos.getD 0))) st
      (le_min (abs_nonneg _) (by omega))
    omega
  · show (0:Int) ≤ max _ 0
    exact le_max_right _ 0
  · have hc := crossSell_le o.price (min |o.quantity| (st.position + posLimit)) st
      (le_min (abs_nonneg _) (by omega))
    omega

/-- C4: the filled quantity of every order never exceeds the remaining room
under the position limit (the truthy run-wide override, else the product's
fixed limit) in the direction of the order; when that room is non-positive
the order is skipped entirely (no fill, state unchanged, no error); in
particular with fixed limit 25, position 20 and no override, a buy order for
50 fills at most 5 regardless of the book and trade liquidity. -/
theorem C4_position_limit_clamping (posLimit : Int) (maxPos : Option Int) (o : OrderL)
    (st : MatchState) :
    (effRoom posLimit maxPos o st ≤ 0 → matchOneOrder posLimit maxPos o st = (0, st))
    ∧ (matchOneOrder posLimit maxPos o st).1 ≤ max (effRoom posLimit maxPos o st) 0
    ∧ (o.quantity = 50 → st.position = 20 → posLimit = 25 → maxPos = none →
        (matchOneOrder posLimit maxPos o st).1 ≤ 5) := by
  refine ⟨matchOneOrder_skip posLimit maxPos o st, matchOneOrder_le posLimit maxPos o st, ?_⟩
  intro h50 hpos hlim hmax
  have hb := matchOneOrder_le posLimit maxPos o st
  have hroom : effRoom posLimit maxPos o st = 5 := by
    unfold effRoom
    rw [h50, hlim, hmax, hpos]
    norm_num [truthy]
  omega

/-- The fixed per-product position-limit table `POSITION_LIMIT`. -/
def POSITION_LIMIT : List (String × Int) :=
  [("SHINX", 50), ("LUXRAY", 250), ("JOLTEON", 350), ("ASH", 60),
   ("MISTY", 100), ("SUDOWOODO", 50), ("ABRA", 50), ("DROWZEE", 50)]

/-- C5: book crossing for a buy order touches only ask levels priced within
the order's limit (every level above the limit keeps its exact volume), and
symmetrically for sell orders against bid levels below the limit; concretely,
a buy of 10 at limit 105 against asks {104:3, 105:2, 106:5} fills 5 = 3@104
then 2@105 in ascending price order (the FIFO lots record the fill order),
leaving only the untouched 106 level; a sell of 10 at limit 105 against bids
{106:3, 105:2, 104:5} fills 3@106 then 2@105, leaving the 104 level. -/
theorem C5_price_priority_matching (posLimit : Int) (maxPos : Option Int) (o : OrderL)
    (st : MatchState) :
    (0 < o.quantity → ∀ p, o.price < p →
      lookupA (matchOneOrder posLimit maxPos o st).2.sell_orders p
        = lookupA st.sell_orders p)
    ∧ (o.quantity ≤ 0 → ∀ p, p < o.price →
      lookupA (matchOneOrder posLimit maxPos o st).2.buy_orders p
        = lookupA st.buy_orders p)
    ∧ ((matchOneOrder 100 none ⟨"P", 105, 10⟩
        ⟨[], [(104, 3), (105, 2), (106, 5)], [], 0, 0, PositionTracker.init⟩).1 = 5
      ∧ (matchOneOrder 100 none ⟨"P", 105, 10⟩
        ⟨[], [(104, 3), (105, 2), (106, 5)], [], 0, 0, PositionTracker.init⟩).2.sell_orders
          = [(106, 5)]
      ∧ (matchOneOrder 100 none ⟨"P", 105, 10⟩
        ⟨[], [(104, 3), (105, 2), (106, 5)], [], 0, 0, PositionTracker.init⟩).2.tracker.long_queue
          = [(3, 104), (2, 105)])
    ∧ ((matchOneOrder 100 none ⟨"P", 105, -10⟩
        ⟨[(106, 3), (105, 2), (104, 5)], [], [], 0, 0, PositionTracker.init⟩).1 = 5
      ∧ (matchOneOrder 100 none ⟨"P", 105, -10⟩
        ⟨[(106, 3), (105, 2), (104, 5)], [], [], 0, 0, PositionTracker.init⟩).2.buy_orders
          = [(104, 5)]
      ∧ (matchOneOrder 100 none ⟨"P", 105, -10⟩
        ⟨[(106, 3), (105, 2), (104, 5)], [], [], 0, 0, PositionTracker.init⟩).2.tracker.short_queue
          = [(3, 106), (2, 105)]) := by
  refine ⟨?_, ?_, ⟨by decide, by decide, by decide⟩, ⟨by decide, by decide, by decide⟩⟩
  · intro hq p hp
    simp only [matchOneOrder]
    split_ifs with h1 h2 h3 h4 h5 h6 h7
    all_goals first
      | rfl
      | exact crossBuy_untouched o.price _ st p hp
      | exact absurd hq h1
  · intro hq p hp
    simp only [matchOneOrder]
    split_ifs with h1 h2 h3 h4 h5 h6 h7
    all_goals first
      | rfl
      | exact crossSell_untouched o.price _ st p hp
      | exact absurd h1 (not_lt.mpr hq)

/-- C6: per order, matched quantity is conserved: the filled total equals the
volume removed from the opposing book side plus the quantity taken out of the
tick's historical-trade list (each trade's quantity decremented in place,
removed exactly at zero: with positive input quantities no zero-quantity
trade is ever kept), the position moves by exactly the signed filled total,
and the per-order loop hands the mutated trade list and book on to the next
order of the same tick. -/
theorem C6_matched_quantity_conservation (posLimit : Int) (maxPos : Option Int)
    (o : OrderL) (st : MatchState)
    (hbuy : (keysA st.buy_orders).Nodup) (hsell : (keysA st.sell_orders).Nodup)
    (hpos : ∀ t ∈ st.trades, 0 < t.quantity) :
    (0 < o.quantity →
      (matchOneOrder posLimit maxPos o st).1
        = (volSum st.sell_orders
            - volSum (matchOneOrder posLimit maxPos o st).2.sell_orders)
          + (tradeSum st.trades - tradeSum (matchOneOrder posLimit maxPos o st).2.trades)
      ∧ (matchOneOrder posLimit maxPos o st).2.position
          = st.position + (matchOneOrder posLimit maxPos o st).1
      ∧ (matchOneOrder posLimit maxPos o st).2.buy_orders = st.buy_orders)
    ∧ (o.quantity ≤ 0 →
      (matchOneOrder posLimit maxPos o st).1
        = (volSum st.buy_orders
            - volSum (matchOneOrder posLimit maxPos o st).2.buy_orders)
          + (tradeSum st.trades - tradeSum (matchOneOrder posLimit maxPos o st).2.trades)
      ∧ (matchOneOrder posLimit maxPos o st).2.position
          = st.position - (matchOneOrder posLimit maxPos o st).1
      ∧ (matchOneOrder posLimit maxPos o st).2.sell_orders = st.sell_orders)
    ∧ (∀ t ∈ (matchOneOrder posLimit maxPos o st).2.trades, 0 < t.quantity)
    ∧ (∀ rest : List OrderL,
        match_product_orders posLimit maxPos (o :: rest) st
          = match_product_orders posLimit maxPos rest
              (matchOneOrder posLimit maxPos o st).2) := by
  refine ⟨?_, ?_, ?_, fun rest => rfl⟩
  · intro hq
    simp only [matchOneOrder]
    split_ifs with h1 h2 h3 h4 h5 h6 h7
    all_goals first
      | exact absurd hq h1
      | exact ⟨by simp, by simp, rfl⟩
      | exact ⟨crossBuy_conservation o.price _ st hsell, crossBuy_position o.price _ st,
          crossBuy_buy_orders o.price _ st⟩
  · intro hq
    simp only [matchOneOrder]
    split_ifs with h1 h2 h3 h4 h5 h6 h7
    all_goals first
      | exact absurd h1 (not_lt.mpr hq)
      | exact ⟨by simp, by simp, rfl⟩
      | exact ⟨crossSell_conservation o.price _ st hbuy, crossSell_position o.price _ st,
          crossSell_sell_orders o.price _ st⟩
  · simp only [matchOneOrder]
    split_ifs with h1 h2 h3 h4 h5 h6 h7
    all_goals first
      | exact hpos
      | exact crossBuy_trades_positive o.price _ st hpos
      | exact crossSell_trades_positive o.price _ st hpos

/-- C10: the run-wide override is tested for truthiness, not presence: an
override of 0 (like None) falls back to the product's fixed POSITION_LIMIT,
so an override of 0 cannot forbid all trading — with SHINX's fixed limit 50
and override 0, a buy order for 10 still fills 10 against the book. -/
theorem C10_zero_override_uses_fixed_limit (posLimit : Int) (o : OrderL) (st : MatchState) :
    matchOneOrder posLimit (some 0) o st = matchOneOrder posLimit none o st
    ∧ POSITION_LIMIT.lookup "SHINX" = some 50
    ∧ (matchOneOrder ((POSITION_LIMIT.lookup "SHINX").getD 0) (some 0) ⟨"SHINX", 100, 10⟩
        ⟨[], [(100, 10)], [], 0, 0, PositionTracker.init⟩).1 = 10 := by
  refine ⟨?_, by decide, by decide⟩
  simp [matchOneOrder, truthy]

/-- C8: `get_mid_price` returns (best bid + best ask)/2 when both book sides
are non-empty and the fixed fallback 10000 when either side is empty; the
per-tick recording computes this value once and uses that same value for both
the unrealized-PnL sample and the recorded mid price, and appends exactly one
entry to every per-product history series, so the series cover every tick. -/
theorem C8_mid_price_and_recording (b : OrderBook) (p : ProdState) :
    (b.buy_orders ≠ [] → b.sell_orders ≠ [] →
      get_mid_price b = ((maxKeyA b.buy_orders : ℚ) + (minKeyA b.sell_orders : ℚ)) / 2)
    ∧ (b.buy_orders = [] ∨ b.sell_orders = [] → get_mid_price b = 10000)
    ∧ (recordTick p).unrealized_pnl_history
        = p.unrealized_pnl_history ++ [p.tracker.get_unrealized_pnl (get_mid_price p.book)]
    ∧ (recordTick p).mid_price_history = p.mid_price_history ++ [get_mid_price p.book]
    ∧ (recordTick p).total_pnl_history
        = p.total_pnl_history
          ++ [p.tracker.realized_pnl + p.tracker.get_unrealized_pnl (get_mid_price p.book)]
    ∧ (recordTick p).position_history.length = p.position_history.length + 1
    ∧ (recordTick p).pnl_history.length = p.pnl_history.length + 1
    ∧ (recordTick p).realized_pnl_history.length = p.realized_pnl_history.length + 1
    ∧ (recordTick p).unrealized_pnl_history.length = p.unrealized_pnl_history.length + 1
    ∧ (recordTick p).total_pnl_history.length = p.total_pnl_history.length + 1
    ∧ (recordTick p).mid_price_history.length = p.mid_price_history.length + 1 := by
  refine ⟨?_, ?_, rfl, rfl, rfl, ?_, ?_, ?_, ?_, ?_, ?_⟩
  · intro h1 h2
    unfold get_mid_price
    rw [if_neg]
    push_neg
    exact ⟨h1, h2⟩
  · intro h
    unfold get_mid_price
    rw [if_pos h]
  all_goals simp [recordTick]

/-! ### Lemmas for the liquidation step -/

theorem lotSum_nonneg (q : List (Int × ℚ)) (h : ∀ l ∈ q, 0 < l.1) : 0 ≤ lotSum q := by
  induction q with
  | nil => simp
  | cons hd tl ih =>
    have h1 := h hd (List.mem_cons_self hd tl)
    have h2 := ih (fun l hl => h l (List.mem_cons_of_mem _ hl))
    simp only [lotSum_cons]
    omega

/-- Selling exactly the total long quantity drains the whole long queue,
realizing total quantity * price minus the total cost of the lots. -/
theorem drainLong_full (price : ℚ) (q : List (Int × ℚ)) :
    ∀ pn, (∀ l ∈ q, 0 < l.1) →
      drainLong price (lotSum q) q pn
        = (0, [], pn + (lotSum q : ℚ) * price - (q.map (fun l => (l.1 : ℚ) * l.2)).sum) := by
  induction q with
  | nil => intro pn _; simp [drainLong]
  | cons hd tl ih =>
    intro pn hq
    obtain ⟨q1, p1⟩ := hd
    have hq1 : 0 < q1 := hq (q1, p1) (List.mem_cons_self _ tl)
    have htl : ∀ l ∈ tl, 0 < l.1 := fun l hl => hq l (List.mem_cons_of_mem _ hl)
    have hrest : 0 ≤ lotSum tl := lotSum_nonneg tl htl
    simp only [lotSum_cons] at *
    rw [drainLong]
    rw [if_neg (by omega), if_pos (by omega)]
    have harg : q1 + lotSum tl - q1 = lotSum tl := by omega
    rw [harg, ih (pn + (q1 : ℚ) * (price - p1)) htl]
    refine Prod.ext rfl (Prod.ext rfl ?_)
    simp only [List.map_cons, List.sum_cons]
    push_cast
    ring

/-- C7: when at least one tick was replayed, the auto-clearing block applies
one closing fill of the negated position at the product's current mid price
through PositionTracker.add_trade for every product with non-zero position
(products already flat are untouched), zeroes every position, appends the
single synthetic timestamp last+1 and exactly one entry to every per-product
and run-wide history series, recording position 0 for every product; a
product ending fully long with position 8 at mid price 120 gains realized
PnL exactly 8 * (120 - averageLongCost), by the tracker's own FIFO fill. -/
theorem C7_end_of_run_liquidation (s : BTState) (last_ts : Int)
    (hts : s.timestamps.getLast? = some last_ts) :
    (autoClear s).timestamps = s.timestamps ++ [last_ts + 1]
    ∧ (autoClear s).products = s.products.map (fun p => appendFinal (clearProduct p))
    ∧ (autoClear s).overall_realized_pnl_history.length
        = s.overall_realized_pnl_history.length + 1
    ∧ (autoClear s).overall_unrealized_pnl_history.length
        = s.overall_unrealized_pnl_history.length + 1
    ∧ (autoClear s).overall_pnl_history.length = s.overall_pnl_history.length + 1
    ∧ (∀ p : ProdState, p.position ≠ 0 →
        (clearProduct p).tracker
            = p.tracker.add_trade (-p.position) (get_mid_price p.book)
          ∧ (clearProduct p).position = 0)
    ∧ (∀ p : ProdState, p.position = 0 → clearProduct p = p)
    ∧ (∀ p : ProdState,
        (appendFinal p).position_history = p.position_history ++ [0]
        ∧ (appendFinal p).pnl_history.length = p.pnl_history.length + 1
        ∧ (appendFinal p).realized_pnl_history.length = p.realized_pnl_history.length + 1
        ∧ (appendFinal p).unrealized_pnl_history.length
            = p.unrealized_pnl_history.length + 1
        ∧ (appendFinal p).total_pnl_history.length = p.total_pnl_history.length + 1
        ∧ (appendFinal p).mid_price_history.length = p.mid_price_history.length + 1)
    ∧ (∀ p : ProdState, p.position = 8 → p.tracker.position = 8 →
        p.tracker.short_queue = [] → lotSum p.tracker.long_queue = 8 →
        (∀ l ∈ p.tracker.long_queue, 0 < l.1) → get_mid_price p.book = 120 →
        (clearProduct p).tracker.realized_pnl
          = p.tracker.realized_pnl + 8 * (120 - p.tracker.get_average_cost)) := by
  refine ⟨?_, ?_, ?_, ?_, ?_, ?_, ?_, ?_, ?_⟩
  · simp [autoClear, hts]
  · simp [autoClear, hts]
  · simp [autoClear, hts]
  · simp [autoClear, hts]
  · simp [autoClear, hts]
  · intro p hp
    simp [clearProduct, hp]
  · intro p hp
    simp [clearProduct, hp]
  · intro p
    refine ⟨rfl, ?_, ?_, ?_, ?_, ?_⟩ <;> simp [appendFinal]
  · intro p h8 htr hsq hls hpos hmid
    have hne : p.position ≠ 0 := by omega
    have hclear : (clearProduct p).tracker
        = p.tracker.add_trade (-p.position) (get_mid_price p.book) := by
      simp [clearProduct, hne]
    rw [hclear, h8, hmid]
    have habs : |(-8 : Int)| = (8 : Int) := by decide
    have hadd : p.tracker.add_trade (-8) 120
        = { p.tracker.process_sell 8 120 with
            position := (p.tracker.process_sell 8 120).position + (-8) } := by
      unfold PositionTracker.add_trade
      rw [if_neg (by norm_num : ¬ (0:Int) < -8), habs]
    rw [hadd]
    show (p.tracker.process_sell 8 120).realized_pnl = _
    unfold PositionTracker.process_sell
    rw [← hls, drainLong_full 120 p.tracker.long_queue p.tracker.realized_pnl hpos]
    show p.tracker.realized_pnl + (lotSum p.tracker.long_queue : ℚ) * 120
        - (p.tracker.long_queue.map (fun l => (l.1 : ℚ) * l.2)).sum = _
    have hls2 : ((p.tracker.long_queue.map (·.1)).sum : Int) = 8 := by
      simpa [lotSum] using hls
    unfold PositionTracker.get_average_cost
    rw [htr, hsq, hls, hls2]
    norm_num
    field_simp
    ring

/-! ### Lemmas for the order-book rebuild -/

theorem mem_keysA_iff (l : List (Int × Int)) (p : Int) :
    p ∈ keysA l ↔ ∃ v, (p, v) ∈ l := by
  constructor
  · intro h
    rcases List.mem_map.mp h with ⟨⟨a, b⟩, hmem, hEq⟩
    exact ⟨b, by rw [show p = a from hEq.symm]; exact hmem⟩
  · rintro ⟨v, hv⟩
    exact List.mem_map.mpr ⟨(p, v), hv, rfl⟩

theorem keysA_insertLevel (side : List (Int × Int)) (pr vol : Option Int) (p : Int)
    (h : p ∈ keysA (insertLevel side pr vol)) : p ∈ keysA side ∨ pr = some p := by
  cases pr with
  | none => exact Or.inl h
  | some k =>
    simp only [insertLevel] at h
    rcases (mem_keysA_iff _ _).mp h with ⟨v, hv⟩
    rcases mem_setA _ _ _ _ hv with h2 | h2
    · exact Or.inl ((mem_keysA_iff _ _).mpr ⟨v, h2⟩)
    · right
      rw [Prod.ext_iff] at h2
      simp only at h2
      rw [h2.1]

theorem insertLevel_pos (side : List (Int × Int)) (pr vol : Option Int)
    (hside : ∀ pv ∈ side, 0 < pv.2)
    (hvol : pr.isSome → 0 < vol.getD 0) :
    ∀ pv ∈ insertLevel side pr vol, 0 < pv.2 := by
  cases pr with
  | none => exact hside
  | some k =>
    intro pv hpv
    rcases mem_setA _ _ _ _ hpv with h | h
    · exact hside pv h
    · rw [h]
      exact hvol rfl

theorem matchOneOrder_pos_levels (posLimit : Int) (maxPos : Option Int) (o : OrderL)
    (st : MatchState) (hb : ∀ pv ∈ st.buy_orders, 0 < pv.2)
    (hs : ∀ pv ∈ st.sell_orders, 0 < pv.2) :
    (∀ pv ∈ (matchOneOrder posLimit maxPos o st).2.buy_orders, 0 < pv.2)
    ∧ (∀ pv ∈ (matchOneOrder posLimit maxPos o st).2.sell_orders, 0 < pv.2) := by
  simp only [matchOneOrder]
  split_ifs with h1 h2 h3 h4 h5 h6 h7
  all_goals first
    | exact ⟨hb, hs⟩
    | exact ⟨by rw [crossBuy_buy_orders]; exact hb, crossBuy_pos_levels o.price _ st hs⟩
    | exact ⟨crossSell_pos_levels o.price _ st hb, by rw [crossSell_sell_orders]; exact hs⟩

/-- C9 as stated is false on the code: rebuilding from a row whose
bid_price_1 is present while bid_volume_1 is absent (falsy) stores the level
(100, 0) with volume zero in the book. -/
theorem C9_zero_volume_level_after_rebuild :
    (OrderBook.update_from_price_row ⟨[], []⟩
        ⟨fun i => if i = 0 then some 100 else none, fun _ => none,
         fun _ => none, fun _ => none⟩).buy_orders = [(100, 0)]
    ∧ ¬ (∀ pv ∈ (OrderBook.update_from_price_row ⟨[], []⟩
        ⟨fun i => if i = 0 then some 100 else none, fun _ => none,
         fun _ => none, fun _ => none⟩).buy_orders, 0 < pv.2) := by
  constructor <;> decide

/-- C9 amended: a rebuilt book stores exactly the row's present prices
(absent price fields are skipped) with the row's volumes, so zero-volume
levels can be stored by a rebuild whose row carries an absent or zero volume
under a present price; when every present price of the row has a strictly
positive volume, every stored level is strictly positive after the rebuild,
and every matching step preserves strict positivity (a level decremented to
zero is deleted, never stored); the rebuild discards the prior book entirely,
so rebuilding twice with the same row equals rebuilding once. -/
theorem C9_rebuild_and_matching_invariants (b b2 : OrderBook) (row : PriceRow)
    (posLimit : Int) (maxPos : Option Int) (o : OrderL) (st : MatchState)
    (hbv : ∀ i, (row.bid_price i).isSome → 0 < (row.bid_volume i).getD 0)
    (hav : ∀ i, (row.ask_price i).isSome → 0 < (row.ask_volume i).getD 0)
    (hb : ∀ pv ∈ st.buy_orders, 0 < pv.2) (hs : ∀ pv ∈ st.sell_orders, 0 < pv.2) :
    (∀ pv ∈ (b.update_from_price_row row).buy_orders, 0 < pv.2)
    ∧ (∀ pv ∈ (b.update_from_price_row row).sell_orders, 0 < pv.2)
    ∧ b.update_from_price_row row = b2.update_from_price_row row
    ∧ (b.update_from_price_row row).update_from_price_row row
        = b.update_from_price_row row
    ∧ (∀ p, p ∈ keysA (b.update_from_price_row row).buy_orders →
        ∃ i, row.bid_price i = some p)
    ∧ (∀ p, p ∈ keysA (b.update_from_price_row row).sell_orders →
        ∃ i, row.ask_price i = some p)
    ∧ (∀ pv ∈ (matchOneOrder posLimit maxPos o st).2.buy_orders, 0 < pv.2)
    ∧ (∀ pv ∈ (matchOneOrder posLimit maxPos o st).2.sell_orders, 0 < pv.2) := by
  refine ⟨?_, ?_, rfl, rfl, ?_, ?_,
    (matchOneOrder_pos_levels posLimit maxPos o st hb hs).1,
    (matchOneOrder_pos_levels posLimit maxPos o st hb hs).2⟩
  · exact insertLevel_pos _ _ _
      (insertLevel_pos _ _ _ (insertLevel_pos _ _ _ (by simp) (hbv 0)) (hbv 1)) (hbv 2)
  · exact insertLevel_pos _ _ _
      (insertLevel_pos _ _ _ (insertLevel_pos _ _ _ (by simp) (hav 0)) (hav 1)) (hav 2)
  · intro p hp
    rcases keysA_insertLevel _ _ _ _ hp with h | h
    · rcases keysA_insertLevel _ _ _ _ h with h2 | h2
      · rcases keysA_insertLevel _ _ _ _ h2 with h3 | h3
        · simp [keysA] at h3
        · exact ⟨0, h3⟩
      · exact ⟨1, h2⟩
    · exact ⟨2, h⟩
  · intro p hp
    rcases keysA_insertLevel _ _ _ _ hp with h | h
    · rcases keysA_insertLevel _ _ _ _ h with h2 | h2
      · rcases keysA_insertLevel _ _ _ _ h2 with h3 | h3
        · simp [keysA] at h3
        · exact ⟨0, h3⟩
      · exact ⟨1, h2⟩
    · exact ⟨2, h⟩

/-! ### Witnesses: the claim theorems applied at concrete inputs -/

/-- Witness for C4 at fixed limit 25, position 20, buy order of 50: the fill
is at most 5 even with 60 units on the book and 40 in the tick's trades. -/
theorem C4_position_limit_clamping_witness :
    (matchOneOrder 25 none ⟨"P", 105, 50⟩
      ⟨[], [(104, 30), (105, 30)], [⟨0, 105, 40⟩], 20, 0, PositionTracker.init⟩).1 ≤ 5 :=
  (C4_position_limit_clamping 25 none ⟨"P", 105, 50⟩
    ⟨[], [(104, 30), (105, 30)], [⟨0, 105, 40⟩], 20, 0, PositionTracker.init⟩).2.2
    rfl rfl rfl rfl

/-- Witness for C5: the 106 ask level is untouched by the buy at limit 105. -/
theorem C5_price_priority_matching_witness :
    lookupA (matchOneOrder 100 none ⟨"P", 105, 10⟩
      ⟨[], [(104, 3), (105, 2), (106, 5)], [], 0, 0, PositionTracker.init⟩).2.sell_orders 106
      = lookupA [(104, 3), (105, 2), (106, 5)] 106 :=
  (C5_price_priority_matching 100 none ⟨"P", 105, 10⟩
    ⟨[], [(104, 3), (105, 2), (106, 5)], [], 0, 0, PositionTracker.init⟩).1
    (by decide) 106 (by decide)

/-- Witness for C6: conservation of matched quantity for a buy of 10 against
a 4-lot ask level and a 6-lot historical trade. -/
theorem C6_matched_quantity_conservation_witness :
    (matchOneOrder 100 none ⟨"P", 105, 10⟩
        ⟨[(104, 3)], [(105, 4)], [⟨0, 105, 6⟩], 0, 0, PositionTracker.init⟩).1
      = (volSum [(105, 4)]
          - volSum (matchOneOrder 100 none ⟨"P", 105, 10⟩
              ⟨[(104, 3)], [(105, 4)], [⟨0, 105, 6⟩], 0, 0, PositionTracker.init⟩).2.sell_orders)
        + (tradeSum [⟨0, 105, 6⟩]
          - tradeSum (matchOneOrder 100 none ⟨"P", 105, 10⟩
              ⟨[(104, 3)], [(105, 4)], [⟨0, 105, 6⟩], 0, 0, PositionTracker.init⟩).2.trades)
    ∧ (matchOneOrder 100 none ⟨"P", 105, 10⟩
        ⟨[(104, 3)], [(105, 4)], [⟨0, 105, 6⟩], 0, 0, PositionTracker.init⟩).2.position
      = 0 + (matchOneOrder 100 none ⟨"P", 105, 10⟩
        ⟨[(104, 3)], [(105, 4)], [⟨0, 105, 6⟩], 0, 0, PositionTracker.init⟩).1
    ∧ (matchOneOrder 100 none ⟨"P", 105, 10⟩
        ⟨[(104, 3)], [(105, 4)], [⟨0, 105, 6⟩], 0, 0, PositionTracker.init⟩).2.buy_orders
      = [(104, 3)] :=
  (C6_matched_quantity_conservation 100 none ⟨"P", 105, 10⟩
    ⟨[(104, 3)], [(105, 4)], [⟨0, 105, 6⟩], 0, 0, PositionTracker.init⟩
    (by decide) (by decide) (by decide)).1 (by decide)

/-- Witness for C7: a one-product run ending long 8 = 5 + 3 with lots at 100
and 110 and mid price (120+120)/2 = 120. -/
theorem C7_end_of_run_liquidation_witness :
    (autoClear ⟨[⟨⟨[(120, 1)], [(120, 1)]⟩, ⟨8, 0, [(5, 100), (3, 110)], []⟩,
        8, 0, [], [], [], [], [], []⟩], [1, 2], [], [], []⟩).timestamps = [1, 2] ++ [2 + 1]
    ∧ (clearProduct ⟨⟨[(120, 1)], [(120, 1)]⟩, ⟨8, 0, [(5, 100), (3, 110)], []⟩,
          8, 0, [], [], [], [], [], []⟩).tracker.realized_pnl
        = 0 + 8 * (120 - PositionTracker.get_average_cost ⟨8, 0, [(5, 100), (3, 110)], []⟩) := by
  have hmid : get_mid_price ⟨[(120, 1)], [(120, 1)]⟩ = 120 := by
    norm_num [get_mid_price, maxKeyA, minKeyA, keysA]
  have h := C7_end_of_run_liquidation ⟨[⟨⟨[(120, 1)], [(120, 1)]⟩,
    ⟨8, 0, [(5, 100), (3, 110)], []⟩, 8, 0, [], [], [], [], [], []⟩], [1, 2], [], [], []⟩
    2 (by decide)
  exact ⟨h.1, h.2.2.2.2.2.2.2.2 ⟨⟨[(120, 1)], [(120, 1)]⟩,
    ⟨8, 0, [(5, 100), (3, 110)], []⟩, 8, 0, [], [], [], [], [], []⟩
    rfl rfl rfl (by decide) (by decide) hmid⟩

/-- Witness for C8: the computed mid of bids {10} and asks {14}. -/
theorem C8_mid_price_and_recording_witness :
    get_mid_price ⟨[(10, 1)], [(14, 2)]⟩
      = ((maxKeyA [(10, 1)] : ℚ) + (minKeyA [(14, 2)] : ℚ)) / 2
    ∧ get_mid_price ⟨[], [(14, 2)]⟩ = 10000 :=
  ⟨(C8_mid_price_and_recording ⟨[(10, 1)], [(14, 2)]⟩
      ⟨⟨[], []⟩, PositionTracker.init, 0, 0, [], [], [], [], [], []⟩).1
        (by decide) (by decide),
   (C8_mid_price_and_recording ⟨[], [(14, 2)]⟩
      ⟨⟨[], []⟩, PositionTracker.init, 0, 0, [], [], [], [], [], []⟩).2.1
        (Or.inl rfl)⟩

/-- Witness for C9 (amended): a row with positive volumes under its present
prices rebuilds to a strictly positive book, idempotently. -/
theorem C9_rebuild_and_matching_invariants_witness :
    (∀ pv ∈ (OrderBook.update_from_price_row ⟨[], []⟩
        ⟨fun i => if i = 0 then some 100 else none, fun i => if i = 0 then some 5 else none,
         fun i => if i = 0 then some 105 else none, fun i => if i = 0 then some 7 else none⟩).buy_orders,
      0 < pv.2)
    ∧ (OrderBook.update_from_price_row (OrderBook.update_from_price_row ⟨[], []⟩
        ⟨fun i => if i = 0 then some 100 else none, fun i => if i = 0 then some 5 else none,
         fun i => if i = 0 then some 105 else none, fun i => if i = 0 then some 7 else none⟩)
        ⟨fun i => if i = 0 then some 100 else none, fun i => if i = 0 then some 5 else none,
         fun i => if i = 0 then some 105 else none, fun i => if i = 0 then some 7 else none⟩)
      = OrderBook.update_from_price_row ⟨[], []⟩
        ⟨fun i => if i = 0 then some 100 else none, fun i => if i = 0 then some 5 else none,
         fun i => if i = 0 then some 105 else none, fun i => if i = 0 then some 7 else none⟩ := by
  have h := C9_rebuild_and_matching_invariants ⟨[], []⟩ ⟨[], []⟩
    ⟨fun i => if i = 0 then some 100 else none, fun i => if i = 0 then some 5 else none,
     fun i => if i = 0 then some 105 else none, fun i => if i = 0 then some 7 else none⟩
    100 none ⟨"P", 105, 1⟩ ⟨[], [], [], 0, 0, PositionTracker.init⟩
    (by decide) (by decide) (by decide) (by decide)
  exact ⟨h.1, h.2.2.2.1⟩
